import Mathlib

/-!
# Verification of the expense-tracker core (src/main.rs)

Shallow embedding of the Rust program `src/main.rs` of the
rusty-expense-tracker repository: the line codec used by
`ExpenseTracker::load_expenses` / `ExpenseTracker::save_expenses` and the
in-memory ledger operations `add_expense`, `delete_expense`, `sum_expenses`.

Modelling conventions:
* Rust strings are Lean `String` / `List Char`.
* `i32` and `u32` are `Int` / `Nat` with explicit range checks where the Rust
  parser enforces them.
* `f32` amounts are idealized as exact rationals `ℚ`: every finite `f32` is a
  decimal fraction, `f32` display prints a decimal form that parses back to
  the same value, and `parse::<f32>` accepts decimal literals.  Rounding to
  binary floating point and the non-finite values `inf`/`NaN` are outside the
  model.  All rationals are built with `mkRat` on integer arithmetic.
* File I/O is modelled by passing the file's contents as `Option (List String)`
  (`none` = the file does not exist, mirroring the `Path::exists` check), and
  `save_expenses` returns the full text it would write.
* The system clock (`get_current_date`) is modelled by passing the current
  date string as an explicit argument to `addExpense`.
* `String.get(5..7)` slices by byte positions; the model slices by character
  positions, which coincide for the ASCII date strings the program handles.
-/

namespace ExpTracker

/-- Whitespace test used by the model of Rust's `str::trim` (the ASCII
whitespace characters; Rust also trims rarer Unicode whitespace, which does
not occur in this development). -/
def isWS (c : Char) : Bool :=
  c = ' ' || c = '\t' || c = '\n' || c = '\r'

/-- Model of Rust `str::trim`: drop leading and trailing whitespace. -/
def rustTrim (s : List Char) : List Char :=
  ((s.dropWhile isWS).reverse.dropWhile isWS).reverse

/-- Split at the first character satisfying `p`: `some (pre, post)` with the
split character dropped, or `none` when no character satisfies `p`. -/
def splitOnceP (p : Char → Bool) : List Char → Option (List Char × List Char)
  | [] => none
  | a :: s =>
    if p a then some ([], s)
    else
      match splitOnceP p s with
      | none => none
      | some (pre, post) => some (a :: pre, post)

/-- Split at the first occurrence of the character `c`. -/
def splitOnce (c : Char) (s : List Char) : Option (List Char × List Char) :=
  splitOnceP (fun a => a = c) s

/-- Split at the last occurrence of `c` (first occurrence in the reverse). -/
def splitLast (c : Char) (s : List Char) : Option (List Char × List Char) :=
  match splitOnce c s.reverse with
  | none => none
  | some (x, y) => some (y.reverse, x.reverse)

/-- Model of Rust `str::splitn(n, c)` collected to a list: at most `n` pieces,
the last piece keeps the rest of the string verbatim. -/
def splitn : Nat → Char → List Char → List (List Char)
  | 0, _, _ => []
  | 1, _, s => [s]
  | n + 2, c, s =>
    match splitOnce c s with
    | none => [s]
    | some (pre, post) => pre :: splitn (n + 1) c post

/-- Model of Rust `str::rsplitn(2, c)` collected to a list: `[after, before]`
around the last occurrence of `c`, or `[s]` when `c` is absent. -/
def rsplitn2 (c : Char) (s : List Char) : List (List Char) :=
  match splitLast c s with
  | none => [s]
  | some (pre, post) => [post, pre]

/-- The decimal digit character for `n % 10`-style values below ten. -/
def digitChar (n : Nat) : Char :=
  match n with
  | 0 => '0' | 1 => '1' | 2 => '2' | 3 => '3' | 4 => '4'
  | 5 => '5' | 6 => '6' | 7 => '7' | 8 => '8' | _ => '9'

/-- Numeric value of a decimal digit character. -/
def digitVal (c : Char) : Nat := c.toNat - 48

/-- Value of a most-significant-first decimal digit string. -/
def digitsVal (s : List Char) : Nat :=
  s.foldl (fun a c => a * 10 + digitVal c) 0

/-- Little-endian decimal digits of `n`, with explicit fuel so that the
definition is structural and kernel-reducible. -/
def natDigitsLE : Nat → Nat → List Nat
  | 0, _ => []
  | fuel + 1, n => if n = 0 then [] else n % 10 :: natDigitsLE fuel (n / 10)

/-- Decimal rendering of a natural number, as Rust formats integers. -/
def natToChars (n : Nat) : List Char :=
  if n = 0 then ['0'] else ((natDigitsLE n n).map digitChar).reverse

/-- Decimal rendering of an integer (model of `i32`'s `Display`). -/
def intToChars (i : Int) : List Char :=
  if i < 0 then '-' :: natToChars i.natAbs else natToChars i.natAbs

/-- A nonempty all-digit string, or a parse failure. -/
def parseDigitsNat (s : List Char) : Option Nat :=
  if s.isEmpty then none
  else if s.all Char.isDigit then some (digitsVal s) else none

/-- The `i32` range check performed by `str::parse::<i32>`. -/
def i32Range (v : Int) : Option Int :=
  if -(2 ^ 31) ≤ v ∧ v ≤ 2 ^ 31 - 1 then some v else none

/-- Model of `str::parse::<i32>`: optional sign, decimal digits, whole-string
match, in-range check. -/
def parseI32 (s : List Char) : Option Int :=
  match s with
  | [] => none
  | c :: r =>
    if c = '-' then (parseDigitsNat r).bind (fun n => i32Range (-(n : Int)))
    else if c = '+' then (parseDigitsNat r).bind (fun n => i32Range (n : Int))
    else (parseDigitsNat s).bind (fun n => i32Range (n : Int))

/-- The `u32` range check performed by `str::parse::<u32>`. -/
def u32Range (v : Nat) : Option Nat :=
  if v < 2 ^ 32 then some v else none

/-- Model of `str::parse::<u32>`: optional `+`, decimal digits, whole-string
match, in-range check (a leading `-` fails the all-digits test). -/
def parseU32 (s : List Char) : Option Nat :=
  match s with
  | [] => none
  | c :: r =>
    if c = '+' then (parseDigitsNat r).bind u32Range
    else (parseDigitsNat s).bind u32Range

/-- Exponent suffix of a float literal: optional sign then digits, consuming
the whole remainder. -/
def parseExpSuffix (s : List Char) : Option Int :=
  match s with
  | [] => none
  | c :: r =>
    if c = '-' then (parseDigitsNat r).map (fun n => -(n : Int))
    else if c = '+' then (parseDigitsNat r).map (fun n => (n : Int))
    else (parseDigitsNat s).map (fun n => (n : Int))

/-- `m / 10^fracLen * 10^ex` as an exact rational, built with `mkRat`. -/
def applyExp (m : Nat) (fracLen : Nat) (ex : Int) : ℚ :=
  if 0 ≤ ex then mkRat (m * 10 ^ ex.toNat) (10 ^ fracLen)
  else mkRat m (10 ^ fracLen * 10 ^ (-ex).toNat)

/-- Unsigned part of the model of `str::parse::<f32>`: decimal digits with an
optional fractional part and optional exponent (`D`, `D.`, `D.F`, `.F`, each
optionally followed by `e`/`E` and a signed exponent).  Values are exact
rationals; the non-finite spellings `inf`/`NaN` are outside the model. -/
def parseFloatMag (s : List Char) : Option ℚ :=
  let ds := s.takeWhile Char.isDigit
  let r1 := s.dropWhile Char.isDigit
  match r1 with
  | [] => if ds.isEmpty then none else some (mkRat (digitsVal ds) 1)
  | c :: r2 =>
    if c = '.' then
      let fs := r2.takeWhile Char.isDigit
      let r3 := r2.dropWhile Char.isDigit
      if ds.isEmpty && fs.isEmpty then none
      else
        let m : Nat := digitsVal ds * 10 ^ fs.length + digitsVal fs
        match r3 with
        | [] => some (mkRat m (10 ^ fs.length))
        | e :: r4 =>
          if e = 'e' ∨ e = 'E' then
            if ds.isEmpty && fs.isEmpty then none
            else (parseExpSuffix r4).map (fun ex => applyExp m fs.length ex)
          else none
    else if (c = 'e' ∨ c = 'E') && !ds.isEmpty then
      (parseExpSuffix r2).map (fun ex => applyExp (digitsVal ds) 0 ex)
    else none

/-- Model of `str::parse::<f32>` (exact-rational idealization): optional sign
then `parseFloatMag`. -/
def parseAmount (s : List Char) : Option ℚ :=
  match s with
  | [] => none
  | c :: r =>
    if c = '-' then (parseFloatMag r).map (fun v => -v)
    else if c = '+' then parseFloatMag r
    else parseFloatMag s

/-- Smallest `k` with `den ∣ 10 ^ k` (searched below `den + 1`, which suffices
for every decimal denominator); `0` when no such `k` exists. -/
def decExp (den : Nat) : Nat :=
  (((List.range (den + 1)).filter (fun k => 10 ^ k % den = 0)).headD 0)

/-- Zero-padded `k`-digit rendering of `n < 10^k`. -/
def padZeros (k n : Nat) : List Char :=
  List.replicate (k - (natToChars n).length) '0' ++ natToChars n

/-- Model of `f32`'s `Display` on exact decimal rationals: sign, integer part,
and a fractional part exactly when the value is not an integer (Rust prints
`3` for `3.0_f32` and `3.5` for `3.5_f32`, never an exponent). -/
def printAmount (q : ℚ) : List Char :=
  let k := decExp q.den
  let m := q.num.natAbs * (10 ^ k / q.den)
  let body :=
    if k = 0 then natToChars m
    else natToChars (m / 10 ^ k) ++ '.' :: padZeros k (m % 10 ^ k)
  if q.num < 0 then '-' :: body else body

/-- `struct Expense`: the sole entity (src/main.rs lines 8–14). -/
structure Expense where
  id : Int
  date : String
  description : String
  amount : ℚ
deriving DecidableEq

/-- `struct ExpenseTracker` (src/main.rs lines 16–20). -/
structure ExpenseTracker where
  expenses : List Expense
  next_id : Int
  file_name : String
deriving DecidableEq

/-- The parse of one line inside the `load_expenses` loop (src/main.rs lines
45–64): trim, `splitn(3, ' ')`, length check, `rsplitn(2, '|')`, length
check, parse id and amount, trim the description. -/
def decodeLine (line : String) : Option Expense :=
  let parts := splitn 3 ' ' (rustTrim line.data)
  if parts.length < 3 then none
  else
    let rest := parts.getD 2 []
    let descSplit := rsplitn2 '|' rest
    if descSplit.length ≠ 2 then none
    else
      match parseI32 (parts.getD 0 []), parseAmount (descSplit.getD 0 []) with
      | some i, some a =>
        some { id := i, date := ⟨parts.getD 1 []⟩,
               description := ⟨rustTrim (descSplit.getD 1 [])⟩, amount := a }
      | _, _ => none

/-- One iteration of the `load_expenses` loop (src/main.rs lines 45–69):
push the decoded record and bump `next_id` to `id + 1` when `id ≥ next_id`. -/
def loadStep (t : ExpenseTracker) (line : String) : ExpenseTracker :=
  match decodeLine line with
  | none => t
  | some e =>
    { t with
      expenses := t.expenses ++ [e],
      next_id := if e.id ≥ t.next_id then e.id + 1 else t.next_id }

/-- `load_expenses` (src/main.rs lines 37–70): `none` models a missing file
(the `Path::exists` early return); otherwise fold the loop over the lines. -/
def loadExpenses (t : ExpenseTracker) (file : Option (List String)) :
    ExpenseTracker :=
  match file with
  | none => t
  | some lines => lines.foldl loadStep t

/-- `ExpenseTracker::new` (src/main.rs lines 23–31): empty collection,
`next_id = 1`, then `load_expenses`. -/
def newTracker (file : Option (List String)) : ExpenseTracker :=
  loadExpenses { expenses := [], next_id := 1, file_name := "expenses.txt" } file

/-- The line written by `save_expenses` for one record, the codec's Encode
(src/main.rs lines 78–84): `writeln!(file, "{} {} {}|{}", id, date,
description, amount)` without the trailing newline. -/
def encodeLine (e : Expense) : String :=
  ⟨intToChars e.id⟩ ++ " " ++ e.date ++ " " ++ e.description ++ "|" ++
    ⟨printAmount e.amount⟩

/-- `save_expenses` (src/main.rs lines 72–85): the full text written to the
file — every current record, one line each, in collection order. -/
def saveExpenses (t : ExpenseTracker) : String :=
  t.expenses.foldl (fun acc e => acc ++ encodeLine e ++ "\n") ""

/-- `add_expense` (src/main.rs lines 87–101); `today` models
`get_current_date()`. -/
def addExpense (t : ExpenseTracker) (today : String) (description : String)
    (amount : ℚ) : ExpenseTracker :=
  { t with
    expenses := t.expenses ++ [⟨t.next_id, today, description, amount⟩],
    next_id := t.next_id + 1 }

/-- `delete_expense` (src/main.rs lines 147–154): remove the record at the
first position whose id matches; the boolean records which branch ran (the
success print versus the not-found print). -/
def deleteExpense (t : ExpenseTracker) (i : Int) : ExpenseTracker × Bool :=
  match t.expenses.findIdx? (fun x => x.id = i) with
  | some pos => ({ t with expenses := t.expenses.eraseIdx pos }, true)
  | none => (t, false)

/-- `e.date.get(5..7)` followed by `parse::<u32>().ok()` (src/main.rs lines
124–127): the two characters at positions 5–6 when the date is long enough,
parsed as a `u32`. -/
def dateMonth? (date : String) : Option Nat :=
  if 7 ≤ date.data.length then parseU32 ((date.data.drop 5).take 2) else none

/-- The `expense_month` value inside `sum_expenses` (src/main.rs lines
124–128): the parsed month, defaulting to `0` via `unwrap_or(0)`. -/
def expenseMonth (date : String) : Nat :=
  (dateMonth? date).getD 0

/-- `sum_expenses` (src/main.rs lines 121–145): fold `total += amount` over
the records passing the optional month filter. -/
def sumExpenses (es : List Expense) (month : Option Nat) : ℚ :=
  es.foldl
    (fun total e =>
      match month with
      | none => total + e.amount
      | some m => if m = expenseMonth e.date then total + e.amount else total)
    0

/-! ## Lemmas about digit rendering and parsing -/

/-- Little-endian value of a digit list. -/
def valLE : List Nat → Nat
  | [] => 0
  | d :: t => d + 10 * valLE t

theorem digitVal_digitChar {d : Nat} (h : d < 10) : digitVal (digitChar d) = d := by
  interval_cases d <;> decide

theorem isDigit_digitChar {d : Nat} (h : d < 10) : (digitChar d).isDigit = true := by
  interval_cases d <;> decide

theorem digitsVal_append_singleton (s : List Char) (c : Char) :
    digitsVal (s ++ [c]) = digitsVal s * 10 + digitVal c := by
  simp [digitsVal, List.foldl_append]

theorem digitsVal_rev_map {l : List Nat} (h : ∀ d ∈ l, d < 10) :
    digitsVal ((l.map digitChar).reverse) = valLE l := by
  induction l with
  | nil => rfl
  | cons d t ih =>
    have hd : d < 10 := h d (List.mem_cons_self ..)
    have ht : ∀ x ∈ t, x < 10 := fun x hx => h x (List.mem_cons_of_mem _ hx)
    simp only [List.map_cons, List.reverse_cons, digitsVal_append_singleton,
      ih ht, digitVal_digitChar hd, valLE]
    ring

theorem natDigitsLE_lt_ten : ∀ fuel n d, d ∈ natDigitsLE fuel n → d < 10 := by
  intro fuel
  induction fuel with
  | zero => intro n d h; simp [natDigitsLE] at h
  | succ fuel ih =>
    intro n d h
    by_cases hn : n = 0
    · simp [natDigitsLE, hn] at h
    · simp only [natDigitsLE, if_neg hn, List.mem_cons] at h
      rcases h with h | h
      · subst h; omega
      · exact ih _ _ h

theorem valLE_natDigitsLE : ∀ fuel n, n ≤ fuel → valLE (natDigitsLE fuel n) = n := by
  intro fuel
  induction fuel with
  | zero => intro n h; interval_cases n; rfl
  | succ fuel ih =>
    intro n h
    by_cases hn : n = 0
    · simp [natDigitsLE, hn, valLE]
    · have hlt : n / 10 < n := Nat.div_lt_self (Nat.pos_of_ne_zero hn) (by omega)
      simp only [natDigitsLE, if_neg hn, valLE, ih (n / 10) (by omega)]
      omega

theorem natDigitsLE_length : ∀ fuel n k, n ≤ fuel → n < 10 ^ k →
    (natDigitsLE fuel n).length ≤ k := by
  intro fuel
  induction fuel with
  | zero => intro n k h _; interval_cases n; simp [natDigitsLE]
  | succ fuel ih =>
    intro n k h hk
    by_cases hn : n = 0
    · simp [natDigitsLE, hn]
    · have hkpos : k ≠ 0 := by
        rintro rfl; simp at hk; omega
      have hlt : n / 10 < n := Nat.div_lt_self (Nat.pos_of_ne_zero hn) (by omega)
      have hdiv : n / 10 < 10 ^ (k - 1) := by
        rw [Nat.div_lt_iff_lt_mul (by norm_num)]
        calc n < 10 ^ k := hk
        _ = 10 ^ (k - 1) * 10 := by
          rw [← pow_succ]; congr 1; omega
      simp only [natDigitsLE, if_neg hn, List.length_cons]
      have := ih (n / 10) (k - 1) (by omega) hdiv
      omega

theorem natToChars_ne_nil (n : Nat) : natToChars n ≠ [] := by
  by_cases hn : n = 0
  · simp [natToChars, hn]
  · simp only [natToChars, if_neg hn]
    intro h
    rw [List.reverse_eq_nil_iff, List.map_eq_nil_iff] at h
    have := valLE_natDigitsLE n n le_rfl
    rw [h] at this
    simp [valLE] at this
    exact hn this.symm

theorem natToChars_all_digit {n : Nat} {c : Char} (h : c ∈ natToChars n) :
    c.isDigit = true := by
  by_cases hn : n = 0
  · simp [natToChars, hn] at h; subst h; decide
  · simp only [natToChars, if_neg hn, List.mem_reverse, List.mem_map] at h
    obtain ⟨d, hd, rfl⟩ := h
    exact isDigit_digitChar (natDigitsLE_lt_ten n n d hd)

theorem digitsVal_natToChars (n : Nat) : digitsVal (natToChars n) = n := by
  by_cases hn : n = 0
  · simp [natToChars, hn, digitsVal, digitVal]
  · simp only [natToChars, if_neg hn]
    rw [digitsVal_rev_map (natDigitsLE_lt_ten n n)]
    exact valLE_natDigitsLE n n le_rfl

theorem natToChars_length_le {n k : Nat} (hk : 1 ≤ k) (h : n < 10 ^ k) :
    (natToChars n).length ≤ k := by
  by_cases hn : n = 0
  · simp [natToChars, hn]; omega
  · simp only [natToChars, if_neg hn, List.length_reverse, List.length_map]
    exact natDigitsLE_length n n k le_rfl h

theorem isDigit_not_ws {c : Char} (h : c.isDigit = true) : isWS c = false := by
  simp only [isWS, Bool.or_eq_false_iff, decide_eq_false_iff_not]
  refine ⟨⟨⟨?_, ?_⟩, ?_⟩, ?_⟩ <;> rintro rfl <;> exact absurd h (by decide)

theorem digitsVal_replicate_zero (j : Nat) (l : List Char) :
    digitsVal (List.replicate j '0' ++ l) = digitsVal l := by
  induction j with
  | zero => rfl
  | succ j ih =>
    simpa [List.replicate_succ, digitsVal, digitVal] using ih

theorem padZeros_all_digit {k n : Nat} {c : Char} (h : c ∈ padZeros k n) :
    c.isDigit = true := by
  simp only [padZeros, List.mem_append, List.mem_replicate] at h
  rcases h with h | h
  · rw [h.2]; decide
  · exact natToChars_all_digit h

theorem padZeros_ne_nil (k n : Nat) : padZeros k n ≠ [] := by
  simp only [padZeros, ne_eq, List.append_eq_nil]
  rintro ⟨-, h⟩
  exact natToChars_ne_nil n h

theorem digitsVal_padZeros (k n : Nat) : digitsVal (padZeros k n) = n := by
  rw [padZeros, digitsVal_replicate_zero, digitsVal_natToChars]

theorem padZeros_length {k n : Nat} (hk : 1 ≤ k) (h : n < 10 ^ k) :
    (padZeros k n).length = k := by
  have := natToChars_length_le hk h
  simp only [padZeros, List.length_append, List.length_replicate]
  omega

theorem takeWhile_append_all {p : Char → Bool} {ds : List Char} (r : List Char)
    (h : ∀ c ∈ ds, p c = true) :
    (ds ++ r).takeWhile p = ds ++ r.takeWhile p := by
  induction ds with
  | nil => rfl
  | cons a t ih =>
    have ha : p a = true := h a (List.mem_cons_self ..)
    simp only [List.cons_append, List.takeWhile_cons, ha, if_true]
    rw [ih (fun c hc => h c (List.mem_cons_of_mem _ hc))]

theorem dropWhile_append_all {p : Char → Bool} {ds : List Char} (r : List Char)
    (h : ∀ c ∈ ds, p c = true) :
    (ds ++ r).dropWhile p = r.dropWhile p := by
  induction ds with
  | nil => rfl
  | cons a t ih =>
    have ha : p a = true := h a (List.mem_cons_self ..)
    simp only [List.cons_append, List.dropWhile_cons, ha, if_true]
    exact ih (fun c hc => h c (List.mem_cons_of_mem _ hc))

theorem parseDigitsNat_natToChars (n : Nat) :
    parseDigitsNat (natToChars n) = some n := by
  have hne : natToChars n ≠ [] := natToChars_ne_nil n
  have hall : (natToChars n).all Char.isDigit = true := by
    rw [List.all_eq_true]
    exact fun c hc => natToChars_all_digit hc
  rw [parseDigitsNat, if_neg (by simpa using hne), if_pos hall,
    digitsVal_natToChars]

theorem intToChars_head_not_sign {i : Int} (h : 0 ≤ i) :
    ∃ c r, intToChars i = c :: r ∧ c.isDigit = true := by
  rw [intToChars, if_neg (by omega)]
  obtain ⟨c, r, hcr⟩ := List.exists_cons_of_ne_nil (natToChars_ne_nil i.natAbs)
  exact ⟨c, r, hcr, natToChars_all_digit (hcr ▸ List.mem_cons_self ..)⟩

theorem not_sign_of_digit {c : Char} (h : c.isDigit = true) :
    c ≠ '-' ∧ c ≠ '+' := by
  constructor <;> rintro rfl <;> exact absurd h (by decide)

theorem parseI32_intToChars {i : Int} (h1 : -(2 ^ 31) ≤ i) (h2 : i ≤ 2 ^ 31 - 1) :
    parseI32 (intToChars i) = some i := by
  by_cases hneg : i < 0
  · rw [intToChars, if_pos hneg]
    rw [parseI32, if_pos rfl, parseDigitsNat_natToChars, Option.some_bind]
    rw [i32Range, if_pos (by omega)]
    congr 1
    omega
  · push_neg at hneg
    obtain ⟨c, r, hcr, hdig⟩ := intToChars_head_not_sign hneg
    obtain ⟨hc1, hc2⟩ := not_sign_of_digit hdig
    rw [hcr, parseI32, if_neg hc1, if_neg hc2, ← hcr]
    rw [intToChars, if_neg (by omega), parseDigitsNat_natToChars, Option.some_bind]
    rw [i32Range, if_pos (by omega)]
    congr 1
    omega

/-- Every character of a rendered integer is a digit or a leading minus. -/
theorem intToChars_chars {i : Int} {c : Char} (h : c ∈ intToChars i) :
    c = '-' ∨ c.isDigit = true := by
  rw [intToChars] at h
  by_cases hneg : i < 0
  · rw [if_pos hneg] at h
    rcases List.mem_cons.1 h with h | h
    · exact Or.inl h
    · exact Or.inr (natToChars_all_digit h)
  · rw [if_neg hneg] at h
    exact Or.inr (natToChars_all_digit h)

/-- Every character printed for an amount is a digit, a dot, or a minus. -/
theorem printAmount_chars {q : ℚ} {c : Char} (h : c ∈ printAmount q) :
    c = '-' ∨ c = '.' ∨ c.isDigit = true := by
  rw [printAmount] at h
  set k := decExp q.den with hk
  set m := q.num.natAbs * (10 ^ k / q.den) with hm
  have hbody : ∀ x ∈ (if k = 0 then natToChars m
      else natToChars (m / 10 ^ k) ++ '.' :: padZeros k (m % 10 ^ k)),
      x = '-' ∨ x = '.' ∨ x.isDigit = true := by
    intro x hx
    by_cases h0 : k = 0
    · rw [if_pos h0] at hx
      exact Or.inr (Or.inr (natToChars_all_digit hx))
    · rw [if_neg h0] at hx
      rcases List.mem_append.1 hx with hx | hx
      · exact Or.inr (Or.inr (natToChars_all_digit hx))
      · rcases List.mem_cons.1 hx with hx | hx
        · exact Or.inr (Or.inl hx)
        · exact Or.inr (Or.inr (padZeros_all_digit hx))
  by_cases hneg : q.num < 0
  · rw [if_pos hneg] at h
    rcases List.mem_cons.1 h with h | h
    · exact Or.inl h
    · exact hbody c h
  · rw [if_neg hneg] at h
    exact hbody c h

/-! ## Lemmas about splitting and trimming -/

theorem splitOnceP_eq_none {p : Char → Bool} {s : List Char}
    (h : ∀ c ∈ s, p c = false) : splitOnceP p s = none := by
  induction s with
  | nil => rfl
  | cons a t ih =>
    have ha : p a = false := h a (List.mem_cons_self ..)
    simp only [splitOnceP, ha, Bool.false_eq_true, if_false]
    rw [ih (fun c hc => h c (List.mem_cons_of_mem _ hc))]

theorem splitOnceP_append {p : Char → Bool} {xs : List Char} {c : Char}
    (ys : List Char) (hxs : ∀ x ∈ xs, p x = false) (hc : p c = true) :
    splitOnceP p (xs ++ c :: ys) = some (xs, ys) := by
  induction xs with
  | nil => simp [splitOnceP, hc]
  | cons a t ih =>
    have ha : p a = false := hxs a (List.mem_cons_self ..)
    simp only [List.cons_append, splitOnceP, ha, Bool.false_eq_true, if_false,
      List.append_eq]
    rw [ih (fun x hx => hxs x (List.mem_cons_of_mem _ hx))]

theorem splitOnce_append {xs : List Char} {c : Char} (ys : List Char)
    (hxs : c ∉ xs) :
    splitOnce c (xs ++ c :: ys) = some (xs, ys) :=
  splitOnceP_append ys
    (fun x hx => decide_eq_false (fun he => hxs (he ▸ hx))) (by simp)

theorem splitOnce_eq_none {c : Char} {s : List Char} (h : c ∉ s) :
    splitOnce c s = none :=
  splitOnceP_eq_none (fun _ hx => decide_eq_false (fun he => h (he ▸ hx)))

theorem splitLast_append {xs : List Char} {c : Char} {ys : List Char}
    (hys : c ∉ ys) :
    splitLast c (xs ++ c :: ys) = some (xs, ys) := by
  rw [splitLast, List.reverse_append, List.reverse_cons, List.append_assoc,
    List.singleton_append,
    splitOnce_append xs.reverse (by simpa using hys)]
  simp

theorem splitLast_eq_none {c : Char} {s : List Char} (h : c ∉ s) :
    splitLast c s = none := by
  rw [splitLast, splitOnce_eq_none (by simpa using h)]

theorem rsplitn2_append {xs : List Char} {c : Char} {ys : List Char}
    (hys : c ∉ ys) :
    rsplitn2 c (xs ++ c :: ys) = [ys, xs] := by
  rw [rsplitn2, splitLast_append hys]

theorem splitn3_eq (c : Char) (s : List Char) :
    splitn 3 c s =
      match splitOnce c s with
      | none => [s]
      | some (pre, post) =>
        pre ::
          (match splitOnce c post with
           | none => [post]
           | some (pre2, post2) => [pre2, post2]) := rfl

/-- `splitn 3` on a string with two marked delimiters whose first two tokens
avoid the delimiter. -/
theorem splitn3_append {c : Char} {a b : List Char} (r : List Char)
    (ha : c ∉ a) (hb : c ∉ b) :
    splitn 3 c (a ++ c :: (b ++ c :: r)) = [a, b, r] := by
  simp only [splitn3_eq, splitOnce_append _ ha, splitOnce_append _ hb]

theorem dropWhile_eq_self_of_head {p : Char → Bool} {s : List Char}
    (h : ∀ c, s.head? = some c → p c = false) : s.dropWhile p = s := by
  cases s with
  | nil => rfl
  | cons a t =>
    have := h a rfl
    simp [List.dropWhile_cons, this]

theorem rustTrim_eq_self {s : List Char}
    (h1 : ∀ c, s.head? = some c → isWS c = false)
    (h2 : ∀ c, s.getLast? = some c → isWS c = false) : rustTrim s = s := by
  rw [rustTrim, dropWhile_eq_self_of_head h1, dropWhile_eq_self_of_head
    (by simpa using h2), List.reverse_reverse]

/-- `rustTrim` fixes a list whose characters are all non-whitespace at the two
ends; convenient memberships form. -/
theorem rustTrim_eq_self_of_mem {s : List Char}
    (h : ∀ c ∈ s, isWS c = false) : rustTrim s = s :=
  rustTrim_eq_self
    (fun c hc => h c (by cases s with
      | nil => simp at hc
      | cons a t => simp at hc; simp [hc]))
    (fun c hc => by
      obtain ⟨ys, hys⟩ := List.getLast?_eq_some_iff.1 hc
      exact h c (by simp [hys]))

/-! ## Round trip of the amount codec -/

theorem takeWhile_eq_self_of_all {p : Char → Bool} {s : List Char}
    (h : ∀ c ∈ s, p c = true) : s.takeWhile p = s := by
  have := @takeWhile_append_all p s [] h
  simpa using this

theorem dropWhile_eq_nil_of_all {p : Char → Bool} {s : List Char}
    (h : ∀ c ∈ s, p c = true) : s.dropWhile p = [] := by
  have := @dropWhile_append_all p s [] h
  simpa using this

theorem parseFloatMag_digits {D : List Char} (hne : D ≠ [])
    (hd : ∀ c ∈ D, c.isDigit = true) :
    parseFloatMag D = some (mkRat (digitsVal D) 1) := by
  rw [parseFloatMag]
  simp only [takeWhile_eq_self_of_all hd, dropWhile_eq_nil_of_all hd]
  simp [List.isEmpty_iff, hne]

theorem parseFloatMag_body {k : Nat} (hk : k ≠ 0) (m : Nat) :
    parseFloatMag (natToChars (m / 10 ^ k) ++ '.' :: padZeros k (m % 10 ^ k)) =
      some (mkRat m (10 ^ k)) := by
  have hD : ∀ c ∈ natToChars (m / 10 ^ k), c.isDigit = true :=
    fun c hc => natToChars_all_digit hc
  have hF : ∀ c ∈ padZeros k (m % 10 ^ k), c.isDigit = true :=
    fun c hc => padZeros_all_digit hc
  have hlen : (padZeros k (m % 10 ^ k)).length = k :=
    padZeros_length (by omega) (Nat.mod_lt _ (by positivity))
  rw [parseFloatMag]
  simp only [takeWhile_append_all _ hD, dropWhile_append_all _ hD,
    List.takeWhile_cons, List.dropWhile_cons]
  have hdot : ('.' : Char).isDigit = false := by decide
  simp only [hdot, Bool.false_eq_true, if_false,
    takeWhile_eq_self_of_all hF, dropWhile_eq_nil_of_all hF,
    List.append_nil]
  have hne : (natToChars (m / 10 ^ k)).isEmpty = false := by
    simpa [List.isEmpty_iff] using natToChars_ne_nil (m / 10 ^ k)
  simp only [hne, Bool.false_and, Bool.false_eq_true, if_false,
    digitsVal_natToChars, digitsVal_padZeros, hlen]
  have hmm : m / 10 ^ k * 10 ^ k + m % 10 ^ k = m := by
    rw [mul_comm]; exact Nat.div_add_mod m (10 ^ k)
  rw [hmm]
  simp

theorem mkRat_amount_eq (q : ℚ) (hdec : q.den ∣ 10 ^ decExp q.den) :
    mkRat ((q.num.natAbs * (10 ^ decExp q.den / q.den) : Nat) : Int)
        (10 ^ decExp q.den) =
      mkRat q.num.natAbs q.den := by
  have h10 : (10 : Nat) ^ decExp q.den ≠ 0 := by positivity
  rw [Rat.mkRat_eq_iff h10 q.den_nz]
  have : q.num.natAbs * (10 ^ decExp q.den / q.den) * q.den =
      q.num.natAbs * 10 ^ decExp q.den := by
    rw [mul_assoc, Nat.div_mul_cancel hdec]
  exact_mod_cast congrArg (Nat.cast : Nat → Int) this

theorem mkRat_natAbs (q : ℚ) :
    mkRat (q.num.natAbs) q.den = if q.num < 0 then -q else q := by
  by_cases hneg : q.num < 0
  · rw [if_pos hneg]
    have : ((q.num.natAbs : Int)) = -q.num := by omega
    rw [this, ← Rat.neg_mkRat, Rat.mkRat_self]
  · rw [if_neg hneg]
    have : ((q.num.natAbs : Int)) = q.num := by omega
    rw [this, Rat.mkRat_self]

theorem parseAmount_cons_digit {c : Char} {r : List Char}
    (h : c.isDigit = true) :
    parseAmount (c :: r) = parseFloatMag (c :: r) := by
  obtain ⟨h1, h2⟩ := not_sign_of_digit h
  rw [parseAmount, if_neg h1, if_neg h2]

/-- The printed amount parses back to exactly the same rational, provided the
denominator is a decimal one (every `f32` value's denominator is). -/
theorem parseAmount_printAmount (q : ℚ) (hdec : q.den ∣ 10 ^ decExp q.den) :
    parseAmount (printAmount q) = some q := by
  set k := decExp q.den with hk
  set m := q.num.natAbs * (10 ^ k / q.den) with hm
  set body := if k = 0 then natToChars m
    else natToChars (m / 10 ^ k) ++ '.' :: padZeros k (m % 10 ^ k) with hbody
  have hmag : parseFloatMag body = some (mkRat m (10 ^ k)) := by
    by_cases h0 : k = 0
    · have hden1 : q.den = 1 := Nat.dvd_one.1 (by simpa [h0] using hdec)
      rw [hbody, if_pos h0, parseFloatMag_digits (natToChars_ne_nil m)
        (fun c hc => natToChars_all_digit hc), digitsVal_natToChars, h0,
        pow_zero]
    · rw [hbody, if_neg h0, parseFloatMag_body h0]
  have hdec' : q.den ∣ 10 ^ decExp q.den := hk ▸ hdec
  have hval : mkRat (m : Int) (10 ^ k) = if q.num < 0 then -q else q := by
    rw [hm, hk, mkRat_amount_eq q hdec', mkRat_natAbs]
  have hbody_digit : ∃ c r, body = c :: r ∧ c.isDigit = true := by
    by_cases h0 : k = 0
    · rw [hbody, if_pos h0]
      obtain ⟨c, r, hcr⟩ := List.exists_cons_of_ne_nil (natToChars_ne_nil m)
      exact ⟨c, r, hcr, natToChars_all_digit (hcr ▸ List.mem_cons_self ..)⟩
    · rw [hbody, if_neg h0]
      obtain ⟨c, r, hcr⟩ :=
        List.exists_cons_of_ne_nil (natToChars_ne_nil (m / 10 ^ k))
      refine ⟨c, r ++ '.' :: padZeros k (m % 10 ^ k), by rw [hcr]; rfl,
        natToChars_all_digit (hcr ▸ List.mem_cons_self ..)⟩
  have hprint : printAmount q = if q.num < 0 then '-' :: body else body := rfl
  by_cases hneg : q.num < 0
  · rw [hprint, if_pos hneg, parseAmount, if_pos rfl, hmag]
    have hq : mkRat (m : Int) (10 ^ k) = -q := by rw [hval, if_pos hneg]
    rw [hq]
    simp
  · obtain ⟨c, r, hcr, hdig⟩ := hbody_digit
    rw [hprint, if_neg hneg, hcr, parseAmount_cons_digit hdig, ← hcr, hmag]
    have hq : mkRat (m : Int) (10 ^ k) = q := by rw [hval, if_neg hneg]
    rw [hq]

/-! ## Round trip of the full line codec -/

theorem encodeLine_data (e : Expense) :
    (encodeLine e).data =
      intToChars e.id ++ ' ' :: (e.date.data ++ ' ' ::
        (e.description.data ++ '|' :: printAmount e.amount)) := by
  simp [encodeLine, String.data_append]

theorem printAmount_ne_nil (q : ℚ) : printAmount q ≠ [] := by
  rw [printAmount]
  by_cases hneg : q.num < 0
  · simp [hneg]
  · rw [if_neg hneg]
    by_cases h0 : decExp q.den = 0
    · simpa [h0] using natToChars_ne_nil _
    · simp [h0]

theorem intToChars_ne_nil (i : Int) : intToChars i ≠ [] := by
  rw [intToChars]
  by_cases hneg : i < 0
  · simp [hneg]
  · simpa [hneg] using natToChars_ne_nil _

theorem space_not_mem_intToChars (i : Int) : ' ' ∉ intToChars i := by
  intro h
  rcases intToChars_chars h with h | h
  · exact absurd h (by decide)
  · exact absurd h (by decide)

theorem pipe_not_mem_printAmount (q : ℚ) : '|' ∉ printAmount q := by
  intro h
  rcases printAmount_chars h with h | h | h
  · exact absurd h (by decide)
  · exact absurd h (by decide)
  · exact absurd h (by decide)

theorem getLast?_append_of_ne_nil {l r : List Char} (h : r ≠ []) :
    (l ++ r).getLast? = r.getLast? := by
  rw [List.getLast?_append]
  cases hl : r.getLast? with
  | none => exact absurd (List.getLast?_eq_none_iff.1 hl) h
  | some c => rfl

theorem rustTrim_encodeLine (e : Expense) :
    rustTrim (encodeLine e).data = (encodeLine e).data := by
  apply rustTrim_eq_self
  · intro c hc
    rw [encodeLine_data] at hc
    obtain ⟨c0, r0, hcr⟩ := List.exists_cons_of_ne_nil (intToChars_ne_nil e.id)
    rw [hcr, List.cons_append, List.head?_cons, Option.some_inj] at hc
    subst hc
    rcases intToChars_chars (hcr ▸ List.mem_cons_self ..) with h | h
    · rw [h]; decide
    · exact isDigit_not_ws h
  · intro c hc
    have hsplit : (encodeLine e).data =
        (intToChars e.id ++ ' ' :: (e.date.data ++ ' ' ::
          (e.description.data ++ ['|']))) ++ printAmount e.amount := by
      rw [encodeLine_data]
      simp [List.append_assoc]
    rw [hsplit, getLast?_append_of_ne_nil (printAmount_ne_nil _)] at hc
    obtain ⟨ys, hys⟩ := List.getLast?_eq_some_iff.1 hc
    have hmem : c ∈ printAmount e.amount := by simp [hys]
    rcases printAmount_chars hmem with h | h | h
    · rw [h]; decide
    · rw [h]; decide
    · exact isDigit_not_ws h

/-- Round trip of the line codec: decoding the encoded line recovers the
record, provided the description is trimmed, the date contains no space, the
id is in `i32` range, and the amount has a decimal denominator. -/
theorem decode_encode (r : Expense)
    (hdesc : rustTrim r.description.data = r.description.data)
    (hdate : ' ' ∉ r.date.data)
    (hid1 : -(2 ^ 31) ≤ r.id) (hid2 : r.id ≤ 2 ^ 31 - 1)
    (hamt : r.amount.den ∣ 10 ^ decExp r.amount.den) :
    decodeLine (encodeLine r) = some r := by
  have h1 : rustTrim (encodeLine r).data =
      intToChars r.id ++ ' ' :: (r.date.data ++ ' ' ::
        (r.description.data ++ '|' :: printAmount r.amount)) := by
    rw [rustTrim_encodeLine, encodeLine_data]
  simp only [decodeLine, h1,
    splitn3_append _ (space_not_mem_intToChars r.id) hdate,
    List.length_cons, List.length_nil]
  norm_num
  simp only [List.getD_cons_succ, List.getD_cons_zero,
    rsplitn2_append (pipe_not_mem_printAmount r.amount),
    List.length_cons, List.length_nil,
    parseI32_intToChars hid1 hid2, parseAmount_printAmount r.amount hamt]
  norm_num
  rw [hdesc]
  rw [parseAmount_printAmount r.amount hamt]

/-! ## Lemmas about loading -/

/-- Loading appends exactly the successfully decoded records, in file order. -/
theorem foldl_loadStep_expenses (lines : List String) :
    ∀ t : ExpenseTracker,
      (lines.foldl loadStep t).expenses =
        t.expenses ++ lines.filterMap decodeLine := by
  induction lines with
  | nil => intro t; simp
  | cons l ls ih =>
    intro t
    rw [List.foldl_cons, ih, List.filterMap_cons]
    cases h : decodeLine l with
    | none => simp [loadStep, h]
    | some e => simp [loadStep, h]

/-- The `next_id` evolution of a load depends only on the decoded records. -/
theorem foldl_loadStep_next_id (lines : List String) :
    ∀ t : ExpenseTracker,
      (lines.foldl loadStep t).next_id =
        (lines.filterMap decodeLine).foldl
          (fun n e => if e.id ≥ n then e.id + 1 else n) t.next_id := by
  induction lines with
  | nil => intro t; simp
  | cons l ls ih =>
    intro t
    rw [List.foldl_cons, ih, List.filterMap_cons]
    cases h : decodeLine l with
    | none => simp [loadStep, h]
    | some e => simp [loadStep, h]

/-- The `next_id` bump fold computes one more than the running maximum. -/
theorem foldl_bump_eq_max (es : List Expense) :
    ∀ n : Int,
      es.foldl (fun n e => if e.id ≥ n then e.id + 1 else n) n =
        es.foldl (fun a e => max a e.id) (n - 1) + 1 := by
  induction es with
  | nil => intro n; simp
  | cons e es ih =>
    intro n
    rw [List.foldl_cons, List.foldl_cons]
    by_cases h : e.id ≥ n
    · rw [if_pos h, ih, max_eq_right (by omega)]
      congr 2
      omega
    · rw [if_neg h, ih, max_eq_left (by omega)]

theorem newTracker_none : newTracker none =
    { expenses := [], next_id := 1, file_name := "expenses.txt" } := rfl

theorem newTracker_expenses (lines : List String) :
    (newTracker (some lines)).expenses = lines.filterMap decodeLine := by
  rw [newTracker, loadExpenses, foldl_loadStep_expenses]
  rfl

theorem newTracker_next_id (lines : List String) :
    (newTracker (some lines)).next_id =
      ((lines.filterMap decodeLine).map (·.id)).foldl max 0 + 1 := by
  rw [newTracker, loadExpenses, foldl_loadStep_next_id, foldl_bump_eq_max]
  norm_num [List.foldl_map]

theorem foldl_loadStep_file_name (lines : List String) :
    ∀ t : ExpenseTracker, (lines.foldl loadStep t).file_name = t.file_name := by
  induction lines with
  | nil => intro t; rfl
  | cons l ls ih =>
    intro t
    rw [List.foldl_cons, ih]
    rw [loadStep]
    cases decodeLine l <;> rfl

theorem newTracker_file_name (file : Option (List String)) :
    (newTracker file).file_name = "expenses.txt" := by
  cases file with
  | none => rfl
  | some lines =>
    rw [newTracker, loadExpenses, foldl_loadStep_file_name]

/-- The ledger invariant: ids are pairwise distinct and all below `next_id`. -/
def TrackerInv (t : ExpenseTracker) : Prop :=
  (t.expenses.map (·.id)).Nodup ∧ ∀ e ∈ t.expenses, e.id < t.next_id

/-- Loading keeps every id strictly below `next_id` and never lowers
`next_id`. -/
theorem foldl_loadStep_lt_next (lines : List String) :
    ∀ t : ExpenseTracker, (∀ e ∈ t.expenses, e.id < t.next_id) →
      (∀ e ∈ (lines.foldl loadStep t).expenses,
          e.id < (lines.foldl loadStep t).next_id) ∧
        t.next_id ≤ (lines.foldl loadStep t).next_id := by
  induction lines with
  | nil => intro t h; exact ⟨h, le_rfl⟩
  | cons l ls ih =>
    intro t h
    rw [List.foldl_cons]
    have hstep : (∀ e ∈ (loadStep t l).expenses, e.id < (loadStep t l).next_id) ∧
        t.next_id ≤ (loadStep t l).next_id := by
      rw [loadStep]
      cases hd : decodeLine l with
      | none => exact ⟨h, le_rfl⟩
      | some e =>
        constructor
        · intro x hx
          simp only [List.mem_append, List.mem_singleton] at hx
          dsimp only
          rcases hx with hx | rfl
          · have := h x hx
            split <;> omega
          · split <;> omega
        · dsimp only
          split <;> omega
    obtain ⟨h1, h2⟩ := ih (loadStep t l) hstep.1
    exact ⟨h1, le_trans hstep.2 h2⟩

/-! ## Lemmas about delete, add and sum -/

theorem findIdx_match_eraseP (p : Expense → Bool) (l : List Expense) :
    (match l.findIdx? p with
      | some pos => l.eraseIdx pos
      | none => l) = l.eraseP p := by
  induction l with
  | nil => rfl
  | cons a t ih =>
    rw [List.findIdx?_cons, List.eraseP_cons]
    by_cases hp : p a = true
    · simp [hp]
    · rw [Bool.not_eq_true] at hp
      simp only [hp, Bool.false_eq_true, if_false, cond_false,
        List.findIdx?_succ]
      cases h : t.findIdx? p with
      | none =>
        rw [h] at ih
        simp only [Option.map_none']
        rw [← ih]
      | some j =>
        rw [h] at ih
        simp only [Option.map_some']
        rw [List.eraseIdx_cons_succ]
        exact congrArg (a :: ·) ih

/-- `delete_expense` removes the first matching record and reports whether a
match existed; a failed lookup leaves the tracker untouched. -/
theorem deleteExpense_eq (t : ExpenseTracker) (i : Int) :
    deleteExpense t i =
      ({ t with expenses := t.expenses.eraseP (fun x => x.id = i) },
        t.expenses.any (fun x => x.id = i)) := by
  rw [deleteExpense]
  have hmatch := findIdx_match_eraseP (fun x => decide (x.id = i)) t.expenses
  cases h : t.expenses.findIdx? (fun x => decide (x.id = i)) with
  | none =>
    rw [h] at hmatch
    have hany : t.expenses.any (fun x => decide (x.id = i)) = false := by
      have := @List.findIdx?_isSome Expense t.expenses
        (fun x => decide (x.id = i))
      rw [h] at this
      exact this.symm
    rw [hany, ← hmatch]
  | some pos =>
    rw [h] at hmatch
    have hany : t.expenses.any (fun x => decide (x.id = i)) = true := by
      have := @List.findIdx?_isSome Expense t.expenses
        (fun x => decide (x.id = i))
      rw [h] at this
      exact this.symm
    rw [hany, ← hmatch]

theorem addExpense_expenses (t : ExpenseTracker) (today description : String)
    (amount : ℚ) :
    (addExpense t today description amount).expenses =
      t.expenses ++ [⟨t.next_id, today, description, amount⟩] := rfl

theorem addExpense_next_id (t : ExpenseTracker) (today description : String)
    (amount : ℚ) :
    (addExpense t today description amount).next_id = t.next_id + 1 := rfl

theorem trackerInv_add (t : ExpenseTracker) (today description : String)
    (amount : ℚ) (h : TrackerInv t) :
    TrackerInv (addExpense t today description amount) := by
  obtain ⟨h1, h2⟩ := h
  constructor
  · rw [addExpense_expenses, List.map_append, List.nodup_append]
    refine ⟨h1, by simp, ?_⟩
    intro x hx
    simp only [List.mem_map] at hx
    obtain ⟨e, he, rfl⟩ := hx
    have := h2 e he
    simp only [List.map_cons, List.map_nil, List.mem_singleton]
    omega
  · intro e he
    rw [addExpense_expenses] at he
    rw [addExpense_next_id]
    rcases List.mem_append.1 he with he | he
    · have := h2 e he
      omega
    · rw [List.mem_singleton] at he
      subst he
      dsimp only
      omega

theorem trackerInv_delete (t : ExpenseTracker) (i : Int) (h : TrackerInv t) :
    TrackerInv (deleteExpense t i).1 := by
  obtain ⟨h1, h2⟩ := h
  rw [deleteExpense_eq]
  constructor
  · exact ((List.eraseP_sublist t.expenses).map (·.id)).nodup h1
  · intro e he
    exact h2 e ((List.eraseP_sublist t.expenses).subset he)

/-- Flatten the optional file contents to a list of lines. -/
def loadLines (file : Option (List String)) : List String :=
  file.getD []

theorem trackerInv_new (file : Option (List String))
    (hnd : (((loadLines file).filterMap decodeLine).map (·.id)).Nodup) :
    TrackerInv (newTracker file) := by
  cases file with
  | none => exact ⟨List.nodup_nil, by intro e he; simp [newTracker_none] at he⟩
  | some lines =>
    constructor
    · rw [newTracker_expenses]
      simpa [loadLines] using hnd
    · have := foldl_loadStep_lt_next lines
        { expenses := [], next_id := 1, file_name := "expenses.txt" }
        (by intro e he; simp at he)
      exact this.1

/-! ## Lemmas about summation and the month filter -/

theorem foldl_add_eq (es : List Expense) :
    ∀ a : ℚ, es.foldl (fun t e => t + e.amount) a =
      a + ((es.map (·.amount)).sum) := by
  induction es with
  | nil => intro a; simp
  | cons e es ih =>
    intro a
    rw [List.foldl_cons, ih, List.map_cons, List.sum_cons]
    ring

theorem foldl_add_filter_eq (p : Expense → Prop) [DecidablePred p]
    (es : List Expense) :
    ∀ a : ℚ, es.foldl (fun t e => if p e then t + e.amount else t) a =
      a + (((es.filter (fun e => decide (p e))).map (·.amount)).sum) := by
  induction es with
  | nil => intro a; simp
  | cons e es ih =>
    intro a
    rw [List.foldl_cons, List.filter_cons]
    by_cases hp : p e
    · rw [if_pos hp, ih, if_pos (show decide (p e) = true by simp [hp]),
        List.map_cons, List.sum_cons]
      ring
    · rw [if_neg hp, ih,
        if_neg (show ¬decide (p e) = true by simp [hp])]

/-- With no filter, `sum_expenses` totals every record. -/
theorem sumExpenses_none (es : List Expense) :
    sumExpenses es none = (es.map (·.amount)).sum := by
  have h : sumExpenses es none =
      es.foldl (fun t e => t + e.amount) 0 := rfl
  rw [h, foldl_add_eq, zero_add]

/-- With a month filter, `sum_expenses` totals the records whose computed
month equals the filter. -/
theorem sumExpenses_some (es : List Expense) (m : Nat) :
    sumExpenses es (some m) =
      ((es.filter (fun e => decide (m = expenseMonth e.date))).map
        (·.amount)).sum := by
  have h : sumExpenses es (some m) =
      es.foldl (fun t e => if m = expenseMonth e.date then t + e.amount
        else t) 0 := rfl
  rw [h, foldl_add_filter_eq (fun e => m = expenseMonth e.date), zero_add]

/-- For a month in range, matching the computed month is exactly parsing the
date's month slice to that value. -/
theorem expenseMonth_eq_iff {d : String} {m : Nat} (hm : 1 ≤ m) :
    m = expenseMonth d ↔ dateMonth? d = some m := by
  rw [expenseMonth]
  cases h : dateMonth? d with
  | none =>
    simp only [Option.getD_none]
    constructor
    · intro h0; omega
    · intro h0; exact absurd h0 (by simp)
  | some v =>
    simp only [Option.getD_some, Option.some_inj]
    exact ⟨fun h0 => by omega, fun h0 => by omega⟩

/-- Month `0` matches exactly the dates whose slice fails to parse or parses
to `0`. -/
theorem expenseMonth_zero_iff (d : String) :
    0 = expenseMonth d ↔ (dateMonth? d = none ∨ dateMonth? d = some 0) := by
  rw [expenseMonth]
  cases h : dateMonth? d with
  | none => simp
  | some v =>
    simp only [Option.getD_some, Option.some_inj]
    exact ⟨fun h0 => Or.inr h0.symm, fun h0 => by
      rcases h0 with h0 | h0
      · exact absurd h0 (by simp)
      · omega⟩

/-! ## Spec-side decode descriptions and the save format -/

/-- The spec's decode algorithm (§4.1) read with the token delimiter as the
single space character, written step by step: trim; take the first two
space-delimited tokens, keeping the remainder whole; split the remainder at
the last `|`; parse id and amount; skip on any failure. -/
def specDecodeSpace (line : String) : Option Expense :=
  match splitOnce ' ' (rustTrim line.data) with
  | none => none
  | some (idTok, r1) =>
    match splitOnce ' ' r1 with
    | none => none
    | some (dateTok, remainder) =>
      match splitLast '|' remainder with
      | none => none
      | some (descPart, amtPart) =>
        match parseI32 idTok, parseAmount amtPart with
        | some i, some a => some ⟨i, ⟨dateTok⟩, ⟨rustTrim descPart⟩, a⟩
        | _, _ => none

/-- The spec's decode algorithm (§4.1) read literally, with tokens delimited
by whitespace (any whitespace character splits). -/
def specDecodeWS (line : String) : Option Expense :=
  match splitOnceP isWS (rustTrim line.data) with
  | none => none
  | some (idTok, r1) =>
    match splitOnceP isWS r1 with
    | none => none
    | some (dateTok, remainder) =>
      match splitLast '|' remainder with
      | none => none
      | some (descPart, amtPart) =>
        match parseI32 idTok, parseAmount amtPart with
        | some i, some a => some ⟨i, ⟨dateTok⟩, ⟨rustTrim descPart⟩, a⟩
        | _, _ => none

/-- The loader's per-line parse is exactly the spec's step-by-step algorithm
with space as the token delimiter. -/
theorem decodeLine_eq_specDecodeSpace (line : String) :
    decodeLine line = specDecodeSpace line := by
  rw [decodeLine, specDecodeSpace, splitn3_eq]
  cases h1 : splitOnce ' ' (rustTrim line.data) with
  | none => rfl
  | some pr =>
    obtain ⟨idTok, r1⟩ := pr
    dsimp only
    cases h2 : splitOnce ' ' r1 with
    | none => rfl
    | some pr2 =>
      obtain ⟨dateTok, rem⟩ := pr2
      dsimp only
      rw [show ([idTok, dateTok, rem] : List (List Char)).length = 3 from rfl,
        if_neg (lt_irrefl 3)]
      rw [show ([idTok, dateTok, rem] : List (List Char)).getD 2 [] = rem from
        rfl]
      rw [show ([idTok, dateTok, rem] : List (List Char)).getD 0 [] = idTok from
        rfl]
      rw [show ([idTok, dateTok, rem] : List (List Char)).getD 1 [] = dateTok
        from rfl]
      rw [rsplitn2]
      cases h3 : splitLast '|' rem with
      | none => rfl
      | some pr3 =>
        obtain ⟨descPart, amtPart⟩ := pr3
        rfl

theorem string_data_newline : ("\n" : String).data = ['\n'] := rfl

/-- The text written by save is the concatenation, in collection order, of
one encoded line plus newline per record. -/
theorem saveExpenses_data (t : ExpenseTracker) :
    (saveExpenses t).data =
      (t.expenses.map (fun e => (encodeLine e).data ++ ['\n'])).flatten := by
  rw [saveExpenses]
  suffices h : ∀ (es : List Expense) (acc : String),
      (es.foldl (fun acc e => acc ++ encodeLine e ++ "\n") acc).data =
        acc.data ++ (es.map (fun e => (encodeLine e).data ++ ['\n'])).flatten by
    simpa using h t.expenses ""
  intro es
  induction es with
  | nil => intro acc; simp
  | cons e es ih =>
    intro acc
    rw [List.foldl_cons, ih, List.map_cons, List.flatten_cons]
    simp [String.data_append, string_data_newline]

/-! ## Remaining small helpers -/

theorem newTracker_lt_next (file : Option (List String)) :
    ∀ e ∈ (newTracker file).expenses, e.id < (newTracker file).next_id := by
  cases file with
  | none => intro e he; simp [newTracker_none] at he
  | some lines =>
    exact (foldl_loadStep_lt_next lines
      { expenses := [], next_id := 1, file_name := "expenses.txt" }
      (by intro e he; simp at he)).1

theorem foldl_max_nonpos : ∀ l : List Int, (∀ i ∈ l, i ≤ 0) →
    l.foldl max 0 = 0 := by
  intro l
  induction l with
  | nil => intro _; rfl
  | cons i t ih =>
    intro h
    rw [List.foldl_cons, max_eq_left (h i (List.mem_cons_self ..)),
      ih (fun x hx => h x (List.mem_cons_of_mem _ hx))]

/-- The summary command boundary: `args[i + 1].parse::<u32>().ok()`
(src/main.rs line 211), which forwards any successfully parsed unsigned
integer unchecked. -/
def parseMonthArg (s : String) : Option Nat :=
  parseU32 s.data

/-! ## The claims -/

/-- Claim C1, counterexample: this record satisfies the claim's two
description conditions (no leading/trailing whitespace, no `|` followed by a
numeric-looking suffix), yet decoding its encoded line does not return it,
because its date contains a space and the date token absorbs only the part up
to the space. -/
theorem claim_C1_counterexample :
    decodeLine (encodeLine ⟨1, "a b", "x", 1⟩) ≠ some ⟨1, "a b", "x", 1⟩ := by
  decide

/-- Claim C1 (amended): round-trip of the codec.  `Decode (Encode r) = r` for
every record whose description has no leading or trailing whitespace, whose
date contains no space character, whose id is an `i32` value, and whose
amount is an exact decimal fraction (as every `f32` value is).  The claim's
condition on `|` in the description is not needed: the amount rendering never
contains `|`, so the split at the last `|` always recovers the description,
and the theorem is proved without that hypothesis. -/
theorem claim_C1 (r : Expense)
    (hdesc : rustTrim r.description.data = r.description.data)
    (hdate : ' ' ∉ r.date.data)
    (hid1 : -(2 ^ 31) ≤ r.id) (hid2 : r.id ≤ 2 ^ 31 - 1)
    (hamt : r.amount.den ∣ 10 ^ decExp r.amount.den) :
    decodeLine (encodeLine r) = some r :=
  decode_encode r hdesc hdate hid1 hid2 hamt

/-- Claim C1, witness: a record with a `|` inside its description
round-trips. -/
theorem claim_C1_witness :
    decodeLine (encodeLine ⟨3, "2024-01-15", "Cof|fee x", mkRat 7 2⟩) =
      some ⟨3, "2024-01-15", "Cof|fee x", mkRat 7 2⟩ :=
  claim_C1 ⟨3, "2024-01-15", "Cof|fee x", mkRat 7 2⟩ (by decide) (by decide)
    (by decide) (by decide) (by decide)

/-- Claim C2, counterexample: the claim reads the token delimiter as
whitespace, but the loader splits on the space character only.  On a line
with a tab between id and date, the claim's whitespace algorithm yields a
record while the loader skips the line. -/
theorem claim_C2_counterexample :
    decodeLine "1\t2024-01-01 Coffee|3.5" = none ∧
      specDecodeWS "1\t2024-01-01 Coffee|3.5" =
        some ⟨1, "2024-01-01", "Coffee", mkRat 35 10⟩ := by
  decide

/-- Claim C2 (amended): for every input line, the loader's per-line parse is
exactly the spec's step-by-step decode algorithm with the delimiter read as
the single space character: trim; split off the first two space-delimited
tokens, keeping the remainder (with its internal whitespace) whole; skip
unless both delimiters were found; split the remainder at the last `|`, skip
if `|` is absent; parse id and amount, skip on failure; keep
`date = date_token` verbatim and trim the description. -/
theorem claim_C2 (line : String) : decodeLine line = specDecodeSpace line :=
  decodeLine_eq_specDecodeSpace line

/-- Claim C3, counterexample: after loading a file whose only record has id
`-5`, `next_id` is `1`, not `max(existing ids) + 1 = -4`. -/
theorem claim_C3_counterexample :
    (newTracker (some ["-5 2024-01-01 x|1.0"])).expenses.map (·.id) = [-5] ∧
      (newTracker (some ["-5 2024-01-01 x|1.0"])).next_id = 1 ∧
      (newTracker (some ["-5 2024-01-01 x|1.0"])).next_id ≠ -5 + 1 := by
  decide

/-- Claim C3 (amended): `next_id` is strictly greater than every id in the
loaded set; Load recomputes it as `max(0, max decoded id) + 1` (so `1` for an
absent or empty file, and non-positive ids never raise it); Add assigns
`id = next_id` and increments `next_id`; DeleteById never changes `next_id`;
and deleting a present id then adding assigns an id different from the
deleted one (ids only increase). -/
theorem claim_C3 :
    (∀ lines, (newTracker (some lines)).next_id =
        ((lines.filterMap decodeLine).map (·.id)).foldl max 0 + 1) ∧
      (∀ file, ∀ e ∈ (newTracker file).expenses,
        e.id < (newTracker file).next_id) ∧
      (∀ t today d a, (∀ e ∈ t.expenses, e.id < t.next_id) →
        (addExpense t today d a).expenses =
            t.expenses ++ [⟨t.next_id, today, d, a⟩] ∧
          (addExpense t today d a).next_id = t.next_id + 1 ∧
          ∀ e ∈ (addExpense t today d a).expenses,
            e.id < (addExpense t today d a).next_id) ∧
      (∀ t i, (deleteExpense t i).1.next_id = t.next_id) ∧
      (∀ t (i : Int), (∀ e ∈ t.expenses, e.id < t.next_id) →
        (∃ e ∈ t.expenses, e.id = i) → (deleteExpense t i).1.next_id ≠ i) := by
  refine ⟨newTracker_next_id, newTracker_lt_next, ?_, ?_, ?_⟩
  · intro t today d a h
    refine ⟨addExpense_expenses t today d a, addExpense_next_id t today d a, ?_⟩
    intro e he
    rw [addExpense_expenses] at he
    rw [addExpense_next_id]
    rcases List.mem_append.1 he with he | he
    · have := h e he
      omega
    · rw [List.mem_singleton] at he
      subst he
      dsimp only
      omega
  · intro t i
    rw [deleteExpense_eq]
  · intro t i h hex
    rw [deleteExpense_eq]
    obtain ⟨e, he, rfl⟩ := hex
    have := h e he
    show t.next_id ≠ e.id
    omega

/-- Claim C3, witness: on a store loaded with the single id `5`, a subsequent
add gets `next_id = 7` after assigning id `6`, and deleting id `5` leaves
`next_id` different from `5`. -/
theorem claim_C3_witness :
    (addExpense (newTracker (some ["5 d x|1"])) "2024-01-02" "y" 2).next_id
        = 7 ∧
      (deleteExpense (newTracker (some ["5 d x|1"])) 5).1.next_id ≠ 5 := by
  constructor
  · exact ((claim_C3.2.2.1 (newTracker (some ["5 d x|1"])) "2024-01-02" "y" 2
      (by decide)).2.1).trans (by decide)
  · exact claim_C3.2.2.2.2 (newTracker (some ["5 d x|1"])) 5 (by decide)
      ⟨⟨5, "d", "x", 1⟩, by decide, by decide⟩

/-- Claim C4: a missing file loads as an empty store with `next_id = 1` and
no error; otherwise the loaded records are exactly the successfully decoded
lines in file order; and the three-line example loads exactly the two good
records with ids 1 and 2. -/
theorem claim_C4 :
    (newTracker none).expenses = [] ∧
      (newTracker none).next_id = 1 ∧
      (∀ lines, (newTracker (some lines)).expenses =
        lines.filterMap decodeLine) ∧
      (newTracker (some ["1 2024-01-01 Coffee|3.50", "garbage line",
          "2 2024-01-02 Lunch|12.00"])).expenses =
        [⟨1, "2024-01-01", "Coffee", mkRat 350 100⟩,
         ⟨2, "2024-01-02", "Lunch", mkRat 1200 100⟩] :=
  ⟨rfl, rfl, newTracker_expenses, by decide⟩

/-- Claim C5: with no month given, `sum_expenses` totals every record (`0`
for an empty store, as the empty sum); with a month `m` in `1–12`, it totals
exactly the records whose date characters at positions 5–6 parse to `m`
(dates that fail to parse there count as month `0`, which cannot match). -/
theorem claim_C5 :
    (∀ es, sumExpenses es none = (es.map (·.amount)).sum) ∧
      ∀ es m, 1 ≤ m → m ≤ 12 →
        sumExpenses es (some m) =
          ((es.filter (fun e => decide (dateMonth? e.date = some m))).map
            (·.amount)).sum := by
  refine ⟨sumExpenses_none, ?_⟩
  intro es m hm _
  rw [sumExpenses_some]
  congr 1
  apply congrArg
  apply List.filter_congr
  intro e _
  exact decide_eq_decide.2 (expenseMonth_eq_iff hm)

/-- Claim C5, witness: on the spec's three-record example the totals are 15,
20 and 35. -/
theorem claim_C5_witness :
    sumExpenses [⟨1, "2024-01-15", "a", 10⟩, ⟨2, "2024-02-01", "b", 20⟩,
        ⟨3, "2024-01-31", "c", 5⟩] (some 1) = 15 ∧
      sumExpenses [⟨1, "2024-01-15", "a", 10⟩, ⟨2, "2024-02-01", "b", 20⟩,
        ⟨3, "2024-01-31", "c", 5⟩] (some 2) = 20 ∧
      sumExpenses [⟨1, "2024-01-15", "a", 10⟩, ⟨2, "2024-02-01", "b", 20⟩,
        ⟨3, "2024-01-31", "c", 5⟩] none = 35 := by
  refine ⟨?_, ?_, ?_⟩
  · rw [claim_C5.2 _ 1 (by omega) (by omega)]
    simp [List.filter_cons,
      show dateMonth? "2024-01-15" = some 1 from by decide,
      show dateMonth? "2024-02-01" = some 2 from by decide,
      show dateMonth? "2024-01-31" = some 1 from by decide]
    norm_num
  · rw [claim_C5.2 _ 2 (by omega) (by omega)]
    simp [List.filter_cons,
      show dateMonth? "2024-01-15" = some 1 from by decide,
      show dateMonth? "2024-02-01" = some 2 from by decide,
      show dateMonth? "2024-01-31" = some 1 from by decide]
  · rw [claim_C5.1]
    norm_num

/-- Claim C6: DeleteById removes the first record with matching id and
reports whether a removal occurred; a present id yields success and shrinks
the collection by exactly one, an absent id yields failure and leaves the
tracker completely unchanged. -/
theorem claim_C6 (t : ExpenseTracker) (i : Int) :
    (deleteExpense t i).1.expenses =
        t.expenses.eraseP (fun x => decide (x.id = i)) ∧
      (deleteExpense t i).2 = t.expenses.any (fun x => decide (x.id = i)) ∧
      ((∃ e ∈ t.expenses, e.id = i) →
        (deleteExpense t i).2 = true ∧
          (deleteExpense t i).1.expenses.length + 1 = t.expenses.length) ∧
      ((∀ e ∈ t.expenses, e.id ≠ i) →
        (deleteExpense t i).2 = false ∧ (deleteExpense t i).1 = t) := by
  refine ⟨by rw [deleteExpense_eq], by rw [deleteExpense_eq], ?_, ?_⟩
  · intro hex
    obtain ⟨e, he, hid⟩ := hex
    constructor
    · rw [deleteExpense_eq]
      rw [List.any_eq_true]
      exact ⟨e, he, by simp [hid]⟩
    · rw [deleteExpense_eq]
      have h1 := List.length_eraseP_of_mem he (p := fun x => decide (x.id = i))
        (by simp [hid])
      have h2 := List.length_pos_of_mem he
      show (t.expenses.eraseP (fun x => decide (x.id = i))).length + 1 =
        t.expenses.length
      omega
  · intro hnone
    have hforall : ∀ a ∈ t.expenses, ¬ ((fun x => decide (x.id = i)) a = true) := by
      intro a ha
      simp only [decide_eq_true_eq]
      exact hnone a ha
    constructor
    · rw [deleteExpense_eq]
      dsimp only
      rw [List.any_eq_false]
      intro a ha
      simpa using hnone a ha
    · rw [deleteExpense_eq]
      dsimp only
      rw [List.eraseP_of_forall_not hforall]

/-- Claim C6, witness: on the singleton store with id 1, deleting id 1
succeeds and empties the store; deleting id 9 fails and changes nothing. -/
theorem claim_C6_witness :
    ((deleteExpense (newTracker (some ["1 d a|1"])) 1).2 = true ∧
      (deleteExpense (newTracker (some ["1 d a|1"])) 1).1.expenses.length + 1 =
        (newTracker (some ["1 d a|1"])).expenses.length) ∧
      (deleteExpense (newTracker (some ["1 d a|1"])) 9).2 = false ∧
      (deleteExpense (newTracker (some ["1 d a|1"])) 9).1 =
        newTracker (some ["1 d a|1"]) := by
  constructor
  · exact (claim_C6 (newTracker (some ["1 d a|1"])) 1).2.2.1
      ⟨⟨1, "d", "a", 1⟩, by decide, by decide⟩
  · exact (claim_C6 (newTracker (some ["1 d a|1"])) 9).2.2.2 (by decide)

/-- Claim C7, counterexample: loading a file whose two lines carry the same
id 1 yields two records with id 1 — ids are not pairwise distinct after Load
over an arbitrary input file. -/
theorem claim_C7_counterexample :
    ¬ (((newTracker (some ["1 2024-01-01 a|1", "1 2024-01-02 b|2"])).expenses.map
        (·.id)).Nodup) := by
  decide

/-- Claim C7 (amended): if the successfully decoded lines of the loaded file
carry pairwise distinct ids (as any file written by Save from a valid store
does), then after Load ids are pairwise distinct and all below `next_id`, and
this invariant is preserved by every Add and DeleteById. -/
theorem claim_C7 :
    (∀ lines, ((lines.filterMap decodeLine).map (·.id)).Nodup →
        TrackerInv (newTracker (some lines))) ∧
      (∀ t today d a, TrackerInv t → TrackerInv (addExpense t today d a)) ∧
      (∀ t i, TrackerInv t → TrackerInv (deleteExpense t i).1) := by
  refine ⟨?_, trackerInv_add, trackerInv_delete⟩
  intro lines hnd
  exact trackerInv_new (some lines) (by simpa [loadLines] using hnd)

/-- Claim C7, witness: the invariant holds after loading one record and is
kept by an add and a delete. -/
theorem claim_C7_witness :
    TrackerInv (newTracker (some ["1 d a|1"])) ∧
      TrackerInv (addExpense (newTracker (some ["1 d a|1"])) "d" "b" 2) ∧
      TrackerInv (deleteExpense (newTracker (some ["1 d a|1"])) 1).1 := by
  have h1 := claim_C7.1 ["1 d a|1"] (by decide)
  exact ⟨h1, claim_C7.2.1 _ "d" "b" 2 h1, claim_C7.2.2 _ 1 h1⟩

/-- Claim C8: Save writes exactly one line per current record in collection
order, and each line is `<id> <date> <description>|<amount>` with
single-space separators and the amount in the numeric type's default decimal
rendering. -/
theorem claim_C8 (t : ExpenseTracker) :
    (saveExpenses t).data =
        (t.expenses.map (fun e => (encodeLine e).data ++ ['\n'])).flatten ∧
      ∀ e : Expense, (encodeLine e).data =
        intToChars e.id ++ ' ' :: (e.date.data ++ ' ' ::
          (e.description.data ++ '|' :: printAmount e.amount)) :=
  ⟨saveExpenses_data t, encodeLine_data⟩

/-- Claim C9, counterexample: a record dated `2024-00-05` parses to month `0`
at positions 5–6, so `SumByMonth (some 0)` counts it (total 7), while the
claim's set — records whose slice fails to parse — is empty (total 0). -/
theorem claim_C9_counterexample :
    sumExpenses [⟨1, "2024-00-05", "x", 7⟩] (some 0) = 7 ∧
      dateMonth? "2024-00-05" = some 0 ∧
      ((([⟨1, "2024-00-05", "x", (7 : ℚ)⟩] : List Expense).filter
          (fun e => decide (dateMonth? e.date = none))).map (·.amount)).sum
        = 0 := by
  refine ⟨?_, by decide, ?_⟩
  · have h : expenseMonth "2024-00-05" = 0 := by decide
    simp [sumExpenses, h]
  · simp [List.filter_cons,
      show (dateMonth? "2024-00-05") = some 0 from by decide]

/-- Claim C9 (amended): `SumByMonth (some 0)` — reachable from the boundary,
which forwards any parsed `u32` such as `--month 0` unchecked — totals
exactly the records whose date slice at positions 5–6 either fails to parse
or parses to `0`. -/
theorem claim_C9 :
    (∀ es, sumExpenses es (some 0) =
        ((es.filter (fun e => decide (dateMonth? e.date = none ∨
          dateMonth? e.date = some 0))).map (·.amount)).sum) ∧
      parseMonthArg "0" = some 0 := by
  constructor
  · intro es
    rw [sumExpenses_some]
    congr 1
    apply congrArg
    apply List.filter_congr
    intro e _
    exact decide_eq_decide.2 (expenseMonth_zero_iff e.date)
  · decide

/-- Claim C10: a line with a non-positive id still decodes (positivity is
never checked); loading it yields a store containing id `-5` while `next_id`
stays `1`; and in general `next_id` stays `1` whenever every decoded id is
non-positive, because the bump happens only when `id ≥ next_id`. -/
theorem claim_C10 :
    decodeLine "-5 2024-01-01 x|1.0" =
        some ⟨-5, "2024-01-01", "x", mkRat 10 10⟩ ∧
      (newTracker (some ["-5 2024-01-01 x|1.0"])).expenses.map (·.id) =
        [-5] ∧
      (newTracker (some ["-5 2024-01-01 x|1.0"])).next_id = 1 ∧
      ∀ lines, (∀ e ∈ lines.filterMap decodeLine, e.id ≤ 0) →
        (newTracker (some lines)).next_id = 1 := by
  refine ⟨by decide, by decide, by decide, ?_⟩
  intro lines h
  have hmax : ((lines.filterMap decodeLine).map (·.id)).foldl max 0 = 0 := by
    apply foldl_max_nonpos
    intro i hi
    rw [List.mem_map] at hi
    obtain ⟨e, he, rfl⟩ := hi
    exact h e he
  rw [newTracker_next_id, hmax]
  decide

/-- Claim C10, witness: the general non-positive-ids statement applied to the
concrete file. -/
theorem claim_C10_witness :
    (newTracker (some ["-5 2024-01-01 x|1.0", "0 2024-01-02 y|2.0"])).next_id
      = 1 :=
  claim_C10.2.2.2 ["-5 2024-01-01 x|1.0", "0 2024-01-02 y|2.0"] (by decide)

end ExpTracker
